import Mathlib

/-!
Temporal Signal Fusion & Prediction Ledger — verification development

A shallow embedding of the feature-engineering pipeline
(`src/features/signal_generator.py`) and the prediction ledger
(`src/evaluation/scorecard.py`) of the `signals` repository, together with
proofs and refutations of the frozen specification claims.

Conventions of the embedding:
* dates are integers (day numbers); `"90d"` tolerances and `dt.total_days()`
  become integer differences;
* prices and severities are rationals;
* a polars DataFrame becomes a `List` of records; `group_by`/`over`
  aggregations become explicit counting/folding over those lists;
* `join_asof(strategy="backward")` becomes `asofLast`: the last row of the
  date-sorted right table that satisfies the key/date predicate (polars
  resolves ties on `event_date` to the row that comes last in sort order);
* `pl.read_parquet` of a file that may be missing becomes an `Option`
  argument; an unguarded read of a missing file becomes `Except.error`.
-/

/-- Errors `PipelineError`: abnormal terminations of a ledger operation.
`missingInput` models an uncaught exception from `pl.read_parquet` on an
absent file; `schemaMismatch` models a polars `ColumnNotFoundError` from
selecting a column that the frame does not have. -/
inductive PipelineError where
  | missingInput
  | schemaMismatch
  deriving Repr, DecidableEq

deriving instance DecidableEq for Except

/-! ## Generic list machinery: stable sort by an integer key, as-of matching -/

/-- Insert `a` into `l` before the first element whose key is `≥ key a`
(stable insertion: an element inserted from the left stays before elements
with an equal key). -/
def insertSortedBy (key : α → Int) (a : α) : List α → List α
  | [] => [a]
  | b :: l => if key a ≤ key b then a :: b :: l else b :: insertSortedBy key a l

/-- Stable insertion sort by an integer key; models `DataFrame.sort(col)`. -/
def sortByKey (key : α → Int) : List α → List α
  | [] => []
  | a :: l => insertSortedBy key a (sortByKey key l)

/-- Predicate `KeySorted key l`: the keys are nondecreasing along `l`. -/
def KeySorted (key : α → Int) (l : List α) : Prop :=
  l.Pairwise (fun x y => key x ≤ key y)

/-- Backward as-of match: the last row (in list order) of `l` satisfying `p`.
On a table sorted by date this is polars' `join_asof(strategy="backward")`
lookup for one left row, with `p` the key-equality/date/tolerance predicate. -/
def asofLast (p : α → Bool) (l : List α) : Option α :=
  (l.filter p).getLast?

/-! ## `normalize_text` (signal_generator.py)

`col.str.to_uppercase().str.replace_all(r"[^A-Z0-9\s]", "").str.split(" ")
.list.get(0)`: uppercase, strip every character that is not `A`–`Z`, `0`–`9`
or whitespace, then keep the first `" "`-separated token (the prefix up to
the first space). -/

def normalize_text (s : String) : String :=
  let upper := s.toList.map Char.toUpper
  let stripped := upper.filter fun c =>
    (('A' ≤ c && c ≤ 'Z') || ('0' ≤ c && c ≤ '9') || c.isWhitespace)
  String.mk (stripped.takeWhile fun c => c ≠ ' ')

/-! ## Data model (signal_generator.py inputs) -/

/-- A row of `nadac_history.parquet`: the weekly price spine. -/
structure NadacRow where
  effective_date : Int
  ndc11 : String
  price_per_unit : ℚ
  drug_description : String
  deriving Repr, DecidableEq

/-- A row of `ndc_entity_map.parquet`. -/
structure MapRow where
  ndc11 : String
  ingredient : String
  manufacturer : String
  deriving Repr, DecidableEq

/-- A row of `shortage_events.parquet`. -/
structure ShortageEvent where
  event_date : Int
  generic_name : String
  event_type : String
  reason : String
  deriving Repr, DecidableEq

/-- A row of `sentinel_risks.parquet`. -/
structure RiskEvent where
  event_date : Int
  manufacturer : String
  severity_score : ℚ
  deriving Repr, DecidableEq

/-! ## Phase 3: shortage signals (generate_features, signal_generator.py) -/

/-- A row of `spine_enhanced`: the price spine left-joined with the entity
map, with `join_key = normalize_text(ingredient)` added.  An `ndc11` absent
from the map yields one row with null ingredient/manufacturer/join_key. -/
structure SpineRow where
  effective_date : Int
  ndc11 : String
  ingredient : Option String
  manufacturer : Option String
  join_key : Option String
  deriving Repr, DecidableEq

/-- Table `spine_enhanced`: `nadac.select(...).join(entity_map, on="ndc11",
how="left").with_columns(normalize_text(col("ingredient"))).sort("effective_date")`. -/
def spineEnhanced (nadac : List NadacRow) (entity_map : List MapRow) : List SpineRow :=
  sortByKey (fun s => s.effective_date) <|
    nadac.flatMap fun r =>
      let ms := entity_map.filter fun m => m.ndc11 = r.ndc11
      if ms.isEmpty then
        [{ effective_date := r.effective_date, ndc11 := r.ndc11,
           ingredient := none, manufacturer := none, join_key := none }]
      else
        ms.map fun m =>
          { effective_date := r.effective_date, ndc11 := r.ndc11,
            ingredient := some m.ingredient, manufacturer := some m.manufacturer,
            join_key := some (normalize_text m.ingredient) }

/-- A row of `events_normalized`: shortage events with
`join_key = normalize_text(generic_name)`, sorted by `event_date` and
projected to `[event_date, join_key, event_type, reason]`. -/
structure NormEvent where
  event_date : Int
  join_key : String
  event_type : String
  reason : String
  deriving Repr, DecidableEq

/-- Table `events_normalized`; note there is no deduplication by
`(join_key, event_date)` here. -/
def eventsNormalized (events : List ShortageEvent) : List NormEvent :=
  sortByKey (fun e => e.event_date) <|
    events.map fun e =>
      { event_date := e.event_date, join_key := normalize_text e.generic_name,
        event_type := e.event_type, reason := e.reason }

/-- The backward as-of join of `spine_enhanced` with `events_normalized`
(`by="join_key"`, `left_on="effective_date"`, `right_on="event_date"`,
`strategy="backward"`, no tolerance), before the `.select` that drops the
event columns. -/
structure ShortageJoinedRow where
  spine : SpineRow
  matched : Option NormEvent
  deriving Repr, DecidableEq

def shortageJoined (nadac : List NadacRow) (entity_map : List MapRow)
    (events : List ShortageEvent) : List ShortageJoinedRow :=
  (spineEnhanced nadac entity_map).map fun s =>
    { spine := s,
      matched := asofLast
        (fun e => some e.join_key = s.join_key && e.event_date ≤ s.effective_date)
        (eventsNormalized events) }

/-- A row of `shortage_signals` after the `with_columns`/`select`:
`is_shortage = 1` iff the matched event is a `shortage_start`, and
`weeks_in_shortage = (effective_date - event_date).total_days() / 7` in that
case (a null match, or a match of any other event type, gives 0 for both). -/
structure ShortageSignalRow where
  effective_date : Int
  ndc11 : String
  is_shortage : Int
  weeks_in_shortage : ℚ
  deriving Repr, DecidableEq

def shortageSignalOf (j : ShortageJoinedRow) : ShortageSignalRow :=
  { effective_date := j.spine.effective_date,
    ndc11 := j.spine.ndc11,
    is_shortage :=
      match j.matched with
      | some e => if e.event_type = "shortage_start" then 1 else 0
      | none => 0,
    weeks_in_shortage :=
      match j.matched with
      | some e =>
          if e.event_type = "shortage_start" then
            ((j.spine.effective_date : ℚ) - (e.event_date : ℚ)) / 7
          else 0
      | none => 0 }

def shortageSignals (nadac : List NadacRow) (entity_map : List MapRow)
    (events : List ShortageEvent) : List ShortageSignalRow :=
  (shortageJoined nadac entity_map events).map shortageSignalOf

/-! ## Phase 5: `integrate_sentinel_risk` -/

/-- The columns of `features_df` that the Sentinel integration touches; the
`manufacturer` column comes from the left join with the entity map and can
be null. -/
structure FeatRow where
  effective_date : Int
  ndc11 : String
  manufacturer : Option String
  deriving Repr, DecidableEq

/-- Aggregation `pl.max("severity_score")` over the `(event_date, manufacturer)` group
of `sentinel_risks` (`.getD 0` is never reached for a key that occurs). -/
def maxSeverity (rs : List RiskEvent) (d : Int) (m : String) : ℚ :=
  (((rs.filter fun r => r.event_date = d && r.manufacturer = m).map
    (fun r => r.severity_score)).max?).getD 0

/-- Table `agg_risks`: `sentinel_risks.group_by(["event_date", "manufacturer"])
.agg(pl.max("severity_score")).sort("event_date")` — one row per
`(event_date, manufacturer)` pair that occurs, carrying the group maximum. -/
def aggRisks (rs : List RiskEvent) : List RiskEvent :=
  sortByKey (fun r => r.event_date) <|
    ((rs.map fun r => (r.event_date, r.manufacturer)).dedup).map fun k =>
      { event_date := k.1, manufacturer := k.2, severity_score := maxSeverity rs k.1 k.2 }

/-- Predicate of the risk as-of join: same (raw, un-normalized) manufacturer,
event at or before the row's date, and within the 90-day tolerance. -/
def riskEligible (f : FeatRow) (e : RiskEvent) : Bool :=
  some e.manufacturer = f.manufacturer && e.event_date ≤ f.effective_date &&
    f.effective_date - e.event_date ≤ 90

/-- Table `features_with_risk`: the backward as-of join (`by="manufacturer"`,
`tolerance="90d"`) of the date-sorted features with `agg_risks`. -/
def riskJoined (feats : List FeatRow) (rs : List RiskEvent) :
    List (FeatRow × Option RiskEvent) :=
  (sortByKey (fun f => f.effective_date) feats).map fun f =>
    (f, asofLast (riskEligible f) (aggRisks rs))

/-- Output row of `integrate_sentinel_risk`: the feature columns, the
matched `event_date` column the join leaves behind, and
`manufacturer_risk_score = severity_score.fill_null(0)`. -/
structure RiskedRow where
  feat : FeatRow
  event_date : Option Int
  manufacturer_risk_score : ℚ
  deriving Repr, DecidableEq

/-- Function `integrate_sentinel_risk(features_df)`.  A missing
`sentinel_risks.parquet` (`sentinel = none`) is caught: the function returns
the features with a constant `manufacturer_risk_score = 0` column. -/
def integrate_sentinel_risk (feats : List FeatRow)
    (sentinel : Option (List RiskEvent)) : List RiskedRow :=
  match sentinel with
  | none => feats.map fun f =>
      { feat := f, event_date := none, manufacturer_risk_score := 0 }
  | some rs =>
      (riskJoined feats rs).map fun fr =>
        { feat := fr.1,
          event_date := (fr.2.map fun e => e.event_date),
          manufacturer_risk_score := ((fr.2.map fun e => e.severity_score)).getD 0 }

/-! ## Prediction ledger (scorecard.py) -/

/-- A row of the prediction registry (`initialize_registry` schema). -/
structure PredictionRecord where
  prediction_id : String
  prediction_date : Int
  target_date : Int
  ndc11 : String
  drug_name : Option String
  start_price : ℚ
  predicted_risk_score : ℚ
  actual_price : Option ℚ
  price_change_pct : Option ℚ
  status : String
  deriving Repr, DecidableEq

/-- The columns of `weekly_features.parquet` that `log_new_predictions`
uses, with the `risk_score` column already present (the on-the-fly XGBoost
scoring path is an external collaborator). -/
structure LogFeatureRow where
  effective_date : Int
  ndc11 : String
  price_per_unit : ℚ
  risk_score : ℚ
  deriving Repr, DecidableEq

/-- Function `log_new_predictions(registry_df)`.

The two reads (`FEATURES_PATH`, then `NADAC_HISTORY_PATH`) are not guarded
by any `try`/`except`: a missing file propagates as an exception
(`.error .missingInput`), it does not return the registry.

When both reads succeed the function then evaluates

    new_predictions_df.select([pl.col("effective_date").alias("prediction_date"), ...])
        .with_columns([..., pl.concat_str([pl.col("effective_date").cast(pl.Utf8),
                                           pl.col("ndc11")], separator="-")
                               .alias("prediction_id")])

The `.select` renames `effective_date` away, so the `.with_columns`
reference to `pl.col("effective_date")` raises a polars
`ColumnNotFoundError` unconditionally (and even if the id expression were
fixed, the final `new_unique_rows.select(registry_df.columns)` would raise
again: the new-predictions frame has no `actual_price` or
`price_change_pct` column).  Hence the embedded function can never reach
the anti-join/concat: it errors whenever both inputs load. -/
def log_new_predictions (features : Option (List LogFeatureRow))
    (nadac : Option (List NadacRow)) (_registry : List PredictionRecord) :
    Except PipelineError (List PredictionRecord) :=
  match features with
  | none => .error .missingInput
  | some _ =>
    match nadac with
    | none => .error .missingInput
    | some _ => .error .schemaMismatch

/-- The backward as-of lookup of `reconcile_pending`: the price row for the
record's `ndc11` with the greatest `effective_date ≤ target_date`
(`nadac_truth` is sorted by `effective_date`; no tolerance). -/
def reconcileMatch (truth : List NadacRow) (r : PredictionRecord) : Option NadacRow :=
  asofLast (fun n => n.ndc11 = r.ndc11 && n.effective_date ≤ r.target_date)
    (sortByKey (fun n => n.effective_date) truth)

/-- One row of `updated_rows`: `actual_price` is overwritten with the joined
`price_per_unit` (null when no price was found), `price_change_pct` with
`(actual - start)/start` when a price was found (else null), and `status`
with `RESOLVED`/`PENDING` accordingly. -/
def reconcileUpdatedRow (truth : List NadacRow) (r : PredictionRecord) :
    PredictionRecord :=
  match reconcileMatch truth r with
  | some n =>
      { r with actual_price := some n.price_per_unit,
               price_change_pct :=
                 some ((n.price_per_unit - r.start_price) / r.start_price),
               status := "RESOLVED" }
  | none =>
      { r with actual_price := none, price_change_pct := none,
               status := "PENDING" }

/-- Semantics of `DataFrame.update(other, on="prediction_id")` on one matched row: every
column takes the other frame's value except where that value is null, which
keeps the left value (polars `update` ignores nulls by default). -/
def applyUpdate (r u : PredictionRecord) : PredictionRecord :=
  { prediction_id := u.prediction_id
    prediction_date := u.prediction_date
    target_date := u.target_date
    ndc11 := u.ndc11
    drug_name := match u.drug_name with | some v => some v | none => r.drug_name
    start_price := u.start_price
    predicted_risk_score := u.predicted_risk_score
    actual_price := match u.actual_price with | some v => some v | none => r.actual_price
    price_change_pct :=
      match u.price_change_pct with | some v => some v | none => r.price_change_pct
    status := u.status }

/-- Function `reconcile_pending(registry_df)` with `datetime.now().date()` passed
explicitly as `now`.  The pending/overdue filter runs first; when it is
empty the function returns the registry before touching
`nadac_history.parquet`.  Otherwise the (unguarded) read happens, the
pending rows are sorted by `target_date`, as-of joined against the price
history, and merged back with `update(on="prediction_id")`. -/
def reconcile_pending (now : Int) (nadac : Option (List NadacRow))
    (registry : List PredictionRecord) :
    Except PipelineError (List PredictionRecord) :=
  let pending := registry.filter fun r => r.status = "PENDING" && r.target_date ≤ now
  if pending.isEmpty then .ok registry
  else
    match nadac with
    | none => .error .missingInput
    | some truth =>
      let updated := (sortByKey (fun r => r.target_date) pending).map
        (reconcileUpdatedRow truth)
      .ok (registry.map fun r =>
        match updated.find? (fun u => u.prediction_id = r.prediction_id) with
        | some u => applyUpdate r u
        | none => r)

/-! ## Phase 1: market structure (HHI & competition) -/

/-- A row of `market_spine`: `nadac.select(["effective_date","ndc11"])
.join(entity_map.select(["ndc11","ingredient","manufacturer"]),
on="ndc11", how="inner")`. -/
structure MarketSpineRow where
  effective_date : Int
  ndc11 : String
  ingredient : String
  manufacturer : String
  deriving Repr, DecidableEq

def marketSpine (nadac : List NadacRow) (entity_map : List MapRow) :
    List MarketSpineRow :=
  nadac.flatMap fun r =>
    (entity_map.filter fun m => m.ndc11 = r.ndc11).map fun m =>
      { effective_date := r.effective_date, ndc11 := r.ndc11,
        ingredient := m.ingredient, manufacturer := m.manufacturer }

/-- The `(effective_date, ingredient)` group of the market spine. -/
def ingredientGroup (rows : List MarketSpineRow) (d : Int) (i : String) :
    List MarketSpineRow :=
  rows.filter fun x => x.effective_date = d && x.ingredient = i

/-- Column `mfg_ndc_count`: `pl.count("ndc11")` over the
`(effective_date, ingredient, manufacturer)` group. -/
def mfgNdcCount (rows : List MarketSpineRow) (d : Int) (i m : String) : ℕ :=
  ((ingredientGroup rows d i).filter fun x => x.manufacturer = m).length

/-- Column `total_ingredient_ndcs`: `mfg_ndc_count.sum().over([date, ingredient])`. -/
def totalIngredientNdcs (rows : List MarketSpineRow) (d : Int) (i : String) : ℕ :=
  (ingredientGroup rows d i).length

/-- Column `market_share = mfg_ndc_count / total_ingredient_ndcs`. -/
def marketShare (rows : List MarketSpineRow) (d : Int) (i m : String) : ℚ :=
  (mfgNdcCount rows d i m : ℚ) / (totalIngredientNdcs rows d i : ℚ)

/-- The distinct manufacturers of an `(effective_date, ingredient)` group. -/
def groupManufacturers (rows : List MarketSpineRow) (d : Int) (i : String) :
    List String :=
  ((ingredientGroup rows d i).map fun x => x.manufacturer).dedup

/-- Column `market_hhi`: `(market_share ** 2).sum()` over the
`(effective_date, ingredient)` group — one share per distinct manufacturer. -/
def marketHHI (rows : List MarketSpineRow) (d : Int) (i : String) : ℚ :=
  ((groupManufacturers rows d i).map fun m => marketShare rows d i m ^ 2).sum

/-- Column `num_competitors`: `pl.col("manufacturer").n_unique()`. -/
def numCompetitors (rows : List MarketSpineRow) (d : Int) (i : String) : ℕ :=
  (groupManufacturers rows d i).length

/-! ## Phase 2: price dynamics (per-entity chronological price series)

`generate_features` sorts by `(ndc11, effective_date)` and applies
`shift`/`rolling_*` `.over("ndc11")`; the embedding works directly on one
entity's chronological price sequence `xs`. -/

/-- Semantics of `Expr.shift(n)`: the value `n` rows back, null for the first `n` rows. -/
def shiftList (n : ℕ) (xs : List ℚ) : List (Option ℚ) :=
  (List.range xs.length).map fun i =>
    if n ≤ i then some (xs.getD (i - n) 0) else none

/-- The `rolling_*(window_size=w)` window ending at row `i`: the last `w`
values up to and including row `i`. -/
def windowAt (w : ℕ) (xs : List ℚ) (i : ℕ) : List ℚ :=
  (xs.take (i + 1)).drop (i + 1 - w)

/-- Semantics of `Expr.rolling_*(window_size=w)` with the default
`min_periods = window_size`: null until the window is full, i.e. at row `i`
the value is non-null iff `i + 1 ≥ w`. -/
def rollingAgg {β : Type} (w : ℕ) (f : List ℚ → β) (xs : List ℚ) :
    List (Option β) :=
  (List.range xs.length).map fun i =>
    if w ≤ i + 1 then some (f (windowAt w xs i)) else none

def sampleMean (l : List ℚ) : ℚ := l.sum / (l.length : ℚ)

/-- Sample variance with `ddof = 1` (polars' default for `rolling_std`). -/
def sampleVar (l : List ℚ) : ℚ :=
  ((l.map fun x => (x - sampleMean l) ^ 2).sum) / ((l.length : ℚ) - 1)

noncomputable def sampleStd (l : List ℚ) : ℝ := Real.sqrt ((sampleVar l : ℚ) : ℝ)

/-- Column `price_velocity_4w = ((price - price.shift(4)) / price.shift(4)).fill_null(0)`. -/
def priceVelocity4w (xs : List ℚ) : List ℚ :=
  List.zipWith
    (fun x lag => match lag with | some l => (x - l) / l | none => 0)
    xs (shiftList 4 xs)

/-- Column `price_volatility_12w = (rolling_std_12 / rolling_mean_12).fill_null(0)`,
real-valued because the standard deviation is a square root. -/
noncomputable def priceVolatility12w (xs : List ℚ) : List ℝ :=
  List.zipWith
    (fun s m =>
      match s, m with
      | some sv, some mv => sv / ((mv : ℚ) : ℝ)
      | _, _ => 0)
    (rollingAgg 12 sampleStd xs) (rollingAgg 12 sampleMean xs)

/-! ## Concrete demonstration data (used by witnesses and counterexamples) -/

def dNadac : List NadacRow := [⟨100, "N1", 10, "DemoDrug"⟩]

def dMap : List MapRow := [⟨"N1", "GABAPENTIN", "ABBOTT"⟩]

/-- One shortage event dated strictly after the only spine row. -/
def dFutureEvents : List ShortageEvent := [⟨200, "GABAPENTIN", "shortage_start", "demand"⟩]

/-- The joined row produced from `dNadac`/`dMap`/`dFutureEvents`. -/
def dJoinedRow : ShortageJoinedRow :=
  { spine := { effective_date := 100, ndc11 := "N1", ingredient := some "GABAPENTIN",
               manufacturer := some "ABBOTT", join_key := some "GABAPENTIN" },
    matched := none }

def dRegistry : List PredictionRecord :=
  [{ prediction_id := "72-N1", prediction_date := 72, target_date := 100,
     ndc11 := "N1", drug_name := some "DemoDrug", start_price := 10,
     predicted_risk_score := 1/2, actual_price := none,
     price_change_pct := none, status := "PENDING" }]

def dFeatAbbott : FeatRow := ⟨100, "N1", some "Abbott Labs"⟩

def dFeatAbbottU : FeatRow := ⟨100, "N1", some "ABBOTT"⟩

def dRiskAbbott : RiskEvent := ⟨95, "ABBOTT", 9⟩

/-- An entity price series of exactly 12 observations, not all equal: the
12th observation has only 11 prior observations. -/
def dPrices12 : List ℚ := [10, 10, 10, 10, 10, 10, 10, 10, 10, 10, 10, 22]

/-- Pointwise effect of one `reconcile_pending` pass on a registry row
(derived characterization of the filter/as-of-join/update pipeline). -/
def reconcileRowOnce (now : Int) (truth : List NadacRow)
    (r : PredictionRecord) : PredictionRecord :=
  if (r.status = "PENDING" && r.target_date ≤ now) = true
  then applyUpdate r (reconcileUpdatedRow truth r) else r

/-- A pending row due for reconciliation in the C3 witness. -/
def dPendingRow : PredictionRecord :=
  { prediction_id := "72-N1", prediction_date := 72, target_date := 100,
    ndc11 := "N1", drug_name := some "DemoDrug", start_price := 10,
    predicted_risk_score := 2, actual_price := none,
    price_change_pct := none, status := "PENDING" }

/-- An already-resolved row in the C3 witness. -/
def dResolvedRow : PredictionRecord :=
  { prediction_id := "1-X", prediction_date := 1, target_date := 29,
    ndc11 := "X", drug_name := some "Other", start_price := 10,
    predicted_risk_score := 2, actual_price := some 11,
    price_change_pct := some 1, status := "RESOLVED" }

def dRegistry2 : List PredictionRecord := [dPendingRow, dResolvedRow]

/-- Expected result of reconciling `dRegistry2` against `dNadac` at day
150: the pending row resolves at price 10 (0% change), the resolved row is
untouched. -/
def dRegistry2Reconciled : List PredictionRecord :=
  [{ dPendingRow with
      actual_price := some 10,
      price_change_pct := some ((10 - 10) / 10),
      status := "RESOLVED" },
   dResolvedRow]

def dTieStart : ShortageEvent := ⟨90, "GABAPENTIN", "shortage_start", "a"⟩

def dTieResolved : ShortageEvent := ⟨90, "GABAPENTIN", "shortage_resolved", "b"⟩

/-- C9 counterexample: The shortage stream is *not* reduced to one
row per (key, date) before the as-of join: two shortage events for the same
normalized key on the same day survive to the join, and which one a spine
row matches depends on the order of the tied rows in the input — the two
orders even flip the `is_shortage` flag. -/
def dTieJoinResolved : ShortageJoinedRow :=
  { spine := dJoinedRow.spine,
    matched := some ⟨90, "GABAPENTIN", "shortage_resolved", "b"⟩ }

def dTieJoinStart : ShortageJoinedRow :=
  { spine := dJoinedRow.spine,
    matched := some ⟨90, "GABAPENTIN", "shortage_start", "a"⟩ }

theorem insertSortedBy_perm (key : α → Int) (a : α) (l : List α) :
    (insertSortedBy key a l).Perm (a :: l) := by
  induction l with
  | nil => simp [insertSortedBy]
  | cons b t ih =>
    simp only [insertSortedBy]
    split
    · exact List.Perm.refl _
    · exact (List.Perm.cons b ih).trans (List.Perm.swap a b t)

theorem sortByKey_perm (key : α → Int) (l : List α) :
    (sortByKey key l).Perm l := by
  induction l with
  | nil => simp [sortByKey]
  | cons a t ih =>
    exact (insertSortedBy_perm key a (sortByKey key t)).trans (List.Perm.cons a ih)

theorem mem_sortByKey (key : α → Int) (l : List α) (x : α) :
    x ∈ sortByKey key l ↔ x ∈ l :=
  (sortByKey_perm key l).mem_iff

theorem keySorted_insertSortedBy (key : α → Int) (a : α) (l : List α)
    (h : KeySorted key l) : KeySorted key (insertSortedBy key a l) := by
  induction l with
  | nil => simp [insertSortedBy, KeySorted]
  | cons b t ih =>
    rcases List.pairwise_cons.mp h with ⟨hb, ht⟩
    simp only [insertSortedBy]
    split
    · rename_i hab
      refine List.pairwise_cons.mpr ⟨?_, h⟩
      intro y hy
      rcases List.mem_cons.mp hy with rfl | hy
      · exact hab
      · exact le_trans hab (hb y hy)
    · rename_i hab
      refine List.pairwise_cons.mpr ⟨?_, ih ht⟩
      intro y hy
      rcases List.mem_cons.mp ((insertSortedBy_perm key a t).mem_iff.mp hy) with rfl | hy
      · exact le_of_not_le hab
      · exact hb y hy

theorem keySorted_sortByKey (key : α → Int) (l : List α) :
    KeySorted key (sortByKey key l) := by
  induction l with
  | nil => simp [sortByKey, KeySorted]
  | cons a t ih => exact keySorted_insertSortedBy key a _ ih

theorem mem_of_getLast?_eq : ∀ {l : List α} {a : α}, l.getLast? = some a → a ∈ l
  | [], _, h => by simp at h
  | [x], a, h => by
      simp [List.getLast?] at h
      simp [h]
  | x :: y :: t, a, h => by
      have h' : (y :: t).getLast? = some a := by
        simpa [List.getLast?] using h
      exact List.mem_cons.mpr (Or.inr (mem_of_getLast?_eq h'))

theorem asofLast_some (p : α → Bool) (l : List α) (a : α)
    (h : asofLast p l = some a) : a ∈ l ∧ p a = true := by
  have ha := mem_of_getLast?_eq h
  exact ⟨List.mem_of_mem_filter ha, List.of_mem_filter ha⟩

theorem asofLast_eq_none_iff (p : α → Bool) (l : List α) :
    asofLast p l = none ↔ ∀ x ∈ l, ¬ p x = true := by
  unfold asofLast
  rw [List.getLast?_eq_none_iff, List.filter_eq_nil_iff]

theorem getLast?_key_max (key : α → Int) (l : List α) (a : α)
    (hs : KeySorted key l) (h : l.getLast? = some a) :
    ∀ b ∈ l, key b ≤ key a := by
  induction l with
  | nil => simp at h
  | cons x t ih =>
    intro b hb
    rcases t with _ | ⟨y, t'⟩
    · simp [List.getLast?] at h
      rcases List.mem_cons.mp hb with rfl | hb
      · simp [h]
      · simp at hb
    · have h' : (y :: t').getLast? = some a := by
        simpa [List.getLast?] using h
      have hs' : KeySorted key (y :: t') := (List.pairwise_cons.mp hs).2
      rcases List.mem_cons.mp hb with rfl | hb
      · have hxy : key b ≤ key y := (List.pairwise_cons.mp hs).1 y (by simp)
        have := ih hs' h' y (by simp)
        exact le_trans hxy this
      · exact ih hs' h' b hb

/-- On a key-sorted table, a backward as-of match is maximal: every other row
satisfying the predicate has a key at or below the matched row's key. -/
theorem asofLast_max (key : α → Int) (p : α → Bool) (l : List α) (a : α)
    (hs : KeySorted key l) (h : asofLast p l = some a) :
    ∀ b ∈ l, p b = true → key b ≤ key a := by
  intro b hb hpb
  have hfs : KeySorted key (l.filter p) := List.Pairwise.filter _ hs
  exact getLast?_key_max key _ a hfs h b (List.mem_filter.mpr ⟨hb, hpb⟩)

theorem asofLast_isSome (p : α → Bool) (l : List α) (b : α)
    (hb : b ∈ l) (hpb : p b = true) : (asofLast p l).isSome := by
  rcases h : asofLast p l with _ | a
  · exact absurd hpb ((asofLast_eq_none_iff p l).mp h b hb)
  · simp

example : normalize_text "Abbott Labs" = "ABBOTT" := by decide

example : normalize_text "gaba-pentin 300mg" = "GABAPENTIN" := by decide

/-! ## C1: no look-ahead in the two backward as-of joins -/

/-- C1: In both event-fusion joins (shortage and manufacturer risk),
every fused row's matched event is dated at or before the spine row's
`effective_date` — whatever future-dated events the event tables contain —
and a spine row with no event at-or-before its date carries a null match. -/
theorem no_lookahead_in_fused_joins :
    (∀ (nadac : List NadacRow) (entity_map : List MapRow) (events : List ShortageEvent),
      ∀ j ∈ shortageJoined nadac entity_map events,
        (∀ e, j.matched = some e → e.event_date ≤ j.spine.effective_date) ∧
        ((∀ e ∈ eventsNormalized events,
            ¬(some e.join_key = j.spine.join_key ∧ e.event_date ≤ j.spine.effective_date)) →
          j.matched = none)) ∧
    (∀ (feats : List FeatRow) (rs : List RiskEvent),
      ∀ fr ∈ riskJoined feats rs,
        (∀ e, fr.2 = some e → e.event_date ≤ fr.1.effective_date) ∧
        ((∀ e ∈ aggRisks rs,
            ¬(some e.manufacturer = fr.1.manufacturer ∧ e.event_date ≤ fr.1.effective_date)) →
          fr.2 = none)) := by
  constructor
  · intro nadac entity_map events j hj
    rcases List.mem_map.mp hj with ⟨s, _hs, rfl⟩
    constructor
    · intro e he
      have := (asofLast_some _ _ e he).2
      simp only [Bool.and_eq_true, decide_eq_true_eq] at this
      exact this.2
    · intro hno
      rw [asofLast_eq_none_iff]
      intro e he
      have := hno e he
      simp only [Bool.and_eq_true, decide_eq_true_eq]
      tauto
  · intro feats rs fr hfr
    rcases List.mem_map.mp hfr with ⟨f, _hf, rfl⟩
    constructor
    · intro e he
      have := (asofLast_some _ _ e he).2
      simp only [riskEligible, Bool.and_eq_true, decide_eq_true_eq] at this
      exact this.1.2
    · intro hno
      rw [asofLast_eq_none_iff]
      intro e he
      have := hno e he
      simp only [riskEligible, Bool.and_eq_true, decide_eq_true_eq]
      tauto

/-- Witness for C1 at concrete inputs: the only event is future-dated
(day 200 vs spine day 100), and the fused row indeed carries a null match. -/
theorem no_lookahead_in_fused_joins_witness :
    dJoinedRow ∈ shortageJoined dNadac dMap dFutureEvents ∧
    dJoinedRow.matched = none := by
  have hmem : dJoinedRow ∈ shortageJoined dNadac dMap dFutureEvents := by decide
  refine ⟨hmem, ?_⟩
  exact (no_lookahead_in_fused_joins.1 dNadac dMap dFutureEvents dJoinedRow hmem).2
    (by decide)

/-! ## C8: 90-day tolerance of the manufacturer-risk join -/

theorem mem_aggRisks (rs : List RiskEvent) (e : RiskEvent)
    (he : e ∈ aggRisks rs) :
    ∃ r ∈ rs, r.event_date = e.event_date ∧ r.manufacturer = e.manufacturer := by
  rw [aggRisks, mem_sortByKey] at he
  rcases List.mem_map.mp he with ⟨k, hk, rfl⟩
  rcases List.mem_map.mp (List.mem_dedup.mp hk) with ⟨r, hr, hkr⟩
  exact ⟨r, hr, by rw [← hkr], by rw [← hkr]⟩

/-- C8: With the 90-day tolerance, a spine row whose every risk event
for its manufacturer at-or-before its date is 91 or more days old gets no
match: its `manufacturer_risk_score` falls back to the default 0 (and the
matched `event_date` column is null). -/
theorem tolerance_90d_enforced (feats : List FeatRow) (rs : List RiskEvent) :
    ∀ row ∈ integrate_sentinel_risk feats (some rs),
      (∀ e ∈ rs, some e.manufacturer = row.feat.manufacturer →
        e.event_date ≤ row.feat.effective_date →
        91 ≤ row.feat.effective_date - e.event_date) →
      row.manufacturer_risk_score = 0 ∧ row.event_date = none := by
  intro row hrow hold
  rcases List.mem_map.mp hrow with ⟨fr, hfr, rfl⟩
  rcases List.mem_map.mp hfr with ⟨f, _hf, rfl⟩
  dsimp only at hold ⊢
  have hnone : asofLast (riskEligible f) (aggRisks rs) = none := by
    rw [asofLast_eq_none_iff]
    intro e he
    rcases mem_aggRisks rs e he with ⟨r, hr, hd, hm⟩
    simp only [riskEligible, Bool.and_eq_true, decide_eq_true_eq]
    rintro ⟨⟨hmfg, hle⟩, htol⟩
    have := hold r hr (by rw [hm]; exact hmfg) (by rw [hd]; exact hle)
    rw [hd] at this
    omega
  simp [hnone]

/-- Witness for C8: a risk event 91 days old (day 9 vs spine day 100) for
the row's own manufacturer is not matched; the score is 0. -/
theorem tolerance_90d_enforced_witness :
    (⟨⟨100, "N1", some "ABBOTT"⟩, none, 0⟩ : RiskedRow) ∈
      integrate_sentinel_risk [⟨100, "N1", some "ABBOTT"⟩]
        (some [⟨9, "ABBOTT", 7⟩]) ∧
    (⟨⟨100, "N1", some "ABBOTT"⟩, none, 0⟩ : RiskedRow).manufacturer_risk_score = 0 := by
  have hmem : (⟨⟨100, "N1", some "ABBOTT"⟩, none, 0⟩ : RiskedRow) ∈
      integrate_sentinel_risk [⟨100, "N1", some "ABBOTT"⟩]
        (some [⟨9, "ABBOTT", 7⟩]) := by decide
  refine ⟨hmem, ?_⟩
  exact (tolerance_90d_enforced [⟨100, "N1", some "ABBOTT"⟩] [⟨9, "ABBOTT", 7⟩]
    _ hmem (by decide)).1

/-! ## C10: a later `shortage_resolved` event clears the shortage flag -/

/-- C10: When the most recent matching shortage event at-or-before a
spine row's date is a `shortage_resolved` event, the fused row carries
`is_shortage = 0` and `weeks_in_shortage = 0`, exactly as if no event had
matched. -/
theorem resolved_event_clears_flag (nadac : List NadacRow)
    (entity_map : List MapRow) (events : List ShortageEvent) :
    ∀ j ∈ shortageJoined nadac entity_map events, ∀ e,
      j.matched = some e → e.event_type = "shortage_resolved" →
      (shortageSignalOf j).is_shortage = 0 ∧
      (shortageSignalOf j).weeks_in_shortage = 0 ∧
      shortageSignalOf j = shortageSignalOf { spine := j.spine, matched := none } := by
  intro j _hj e he htype
  have hne : e.event_type ≠ "shortage_start" := by rw [htype]; decide
  simp [shortageSignalOf, he, hne]

/-- Witness for C10: the latest matching event on day 90 is a
`shortage_resolved`; the fused row for spine day 100 carries flag 0. -/
theorem resolved_event_clears_flag_witness :
    (shortageJoined dNadac dMap
        [⟨50, "GABAPENTIN", "shortage_start", "demand"⟩,
         ⟨90, "GABAPENTIN", "shortage_resolved", "recovered"⟩]).map
      shortageSignalOf =
      [⟨100, "N1", 0, 0⟩] := by
  have hj : shortageJoined dNadac dMap
      [⟨50, "GABAPENTIN", "shortage_start", "demand"⟩,
       ⟨90, "GABAPENTIN", "shortage_resolved", "recovered"⟩] =
      [{ spine := dJoinedRow.spine,
         matched := some ⟨90, "GABAPENTIN", "shortage_resolved", "recovered"⟩ }] := by
    decide
  have h := resolved_event_clears_flag dNadac dMap
    [⟨50, "GABAPENTIN", "shortage_start", "demand"⟩,
     ⟨90, "GABAPENTIN", "shortage_resolved", "recovered"⟩]
    { spine := dJoinedRow.spine,
      matched := some ⟨90, "GABAPENTIN", "shortage_resolved", "recovered"⟩ }
    (by rw [hj]; exact List.mem_singleton.mpr rfl)
    ⟨90, "GABAPENTIN", "shortage_resolved", "recovered"⟩ rfl rfl
  rw [hj]
  simp only [List.map_cons, List.map_nil]
  rw [List.cons_eq_cons]
  refine ⟨?_, rfl⟩
  have : shortageSignalOf
      { spine := dJoinedRow.spine,
        matched := some ⟨90, "GABAPENTIN", "shortage_resolved", "recovered"⟩ } =
      shortageSignalOf { spine := dJoinedRow.spine, matched := none } := h.2.2
  rw [this]
  decide

/-! ## C6: HHI bounds -/

theorem count_map_manufacturer (G : List MarketSpineRow) (m : String) :
    ((G.map fun x => x.manufacturer).count m) =
      (G.filter fun x => x.manufacturer = m).length := by
  rw [List.count, List.countP_eq_length_filter, List.filter_map, List.length_map]
  apply congrArg List.length
  apply List.filter_congr
  intro x _
  show (x.manufacturer == m) = decide (x.manufacturer = m)
  rw [Bool.eq_iff_iff]
  simp [beq_iff_eq]

theorem marketShare_as_count (rows : List MarketSpineRow) (d : Int) (i m : String) :
    marketShare rows d i m =
      (((ingredientGroup rows d i).map fun x => x.manufacturer).count m : ℚ) /
        (((ingredientGroup rows d i).map fun x => x.manufacturer).length : ℚ) := by
  rw [marketShare, mfgNdcCount, totalIngredientNdcs, count_map_manufacturer,
    List.length_map]

/-- Core arithmetic fact behind the HHI bound: over any nonempty list of
names, the sum over distinct names of `(count/length)²` lies in `(0, 1]`,
and equals 1 when there is exactly one distinct name. -/
theorem dedup_sq_sum_bounds (lst : List String) (h : lst ≠ []) :
    (0 < ((lst.dedup).map fun m =>
        ((lst.count m : ℚ) / (lst.length : ℚ)) ^ 2).sum ∧
      ((lst.dedup).map fun m =>
        ((lst.count m : ℚ) / (lst.length : ℚ)) ^ 2).sum ≤ 1) ∧
    (lst.dedup.length = 1 →
      ((lst.dedup).map fun m =>
        ((lst.count m : ℚ) / (lst.length : ℚ)) ^ 2).sum = 1) := by
  have hT : 0 < lst.length := List.length_pos.mpr h
  have hTQ : (0 : ℚ) < (lst.length : ℚ) := by exact_mod_cast hT
  set g : String → ℚ := fun m => ((lst.count m : ℚ) / (lst.length : ℚ)) ^ 2 with hg
  have htf : lst.dedup.toFinset = lst.toFinset := by
    ext x
    simp [List.mem_dedup]
  have hsum : ((lst.dedup).map g).sum = ∑ a ∈ lst.toFinset, g a := by
    rw [← List.sum_toFinset g (List.nodup_dedup lst), htf]
  constructor
  · constructor
    · rw [hsum]
      obtain ⟨a, ha⟩ : ∃ a, a ∈ lst := List.exists_mem_of_ne_nil lst h
      apply Finset.sum_pos'
      · intro b _
        simp only [hg]
        positivity
      · refine ⟨a, List.mem_toFinset.mpr ha, ?_⟩
        have hca : 0 < lst.count a := List.count_pos_iff.mpr ha
        have hcq : (0 : ℚ) < (lst.count a : ℚ) := by exact_mod_cast hca
        simp only [hg]
        positivity
    · rw [hsum]
      have hstep : ∑ a ∈ lst.toFinset, g a ≤
          ∑ a ∈ lst.toFinset, (lst.count a : ℚ) / (lst.length : ℚ) := by
        apply Finset.sum_le_sum
        intro a _
        have h0 : (0 : ℚ) ≤ (lst.count a : ℚ) / (lst.length : ℚ) := by positivity
        have h1 : (lst.count a : ℚ) / (lst.length : ℚ) ≤ 1 := by
          rw [div_le_one hTQ]
          exact_mod_cast List.count_le_length a lst
        simp only [hg]
        nlinarith [sq_nonneg ((lst.count a : ℚ) / (lst.length : ℚ))]
      refine le_trans hstep ?_
      rw [← Finset.sum_div]
      rw [div_le_one hTQ]
      have : ∑ a ∈ lst.toFinset, ((lst.count a : ℚ)) =
          ((∑ a ∈ lst.toFinset, lst.count a : ℕ) : ℚ) := by push_cast; rfl
      rw [this, List.sum_toFinset_count_eq_length]
  · intro h1
    obtain ⟨m, hm⟩ := List.length_eq_one.mp h1
    have hall : ∀ x ∈ lst, x = m := by
      intro x hx
      have : x ∈ lst.dedup := List.mem_dedup.mpr hx
      rw [hm] at this
      simpa using this
    have hcount : lst.count m = lst.length := by
      rw [List.count_eq_length]
      intro b hb
      exact (hall b hb).symm
    rw [hm]
    simp only [List.map_cons, List.map_nil, List.sum_cons, List.sum_nil, add_zero, hg]
    rw [hcount, div_self (ne_of_gt hTQ)]
    norm_num

/-- C6: For every `(date, ingredient)` group present in the Market
Structure output, `0 < herfindahl_index ≤ 1`, and an ingredient with
exactly one manufacturer on that date has `herfindahl_index = 1`. -/
theorem hhi_bounds (nadac : List NadacRow) (entity_map : List MapRow)
    (d : Int) (i : String)
    (hocc : totalIngredientNdcs (marketSpine nadac entity_map) d i ≠ 0) :
    (0 < marketHHI (marketSpine nadac entity_map) d i ∧
      marketHHI (marketSpine nadac entity_map) d i ≤ 1) ∧
    (numCompetitors (marketSpine nadac entity_map) d i = 1 →
      marketHHI (marketSpine nadac entity_map) d i = 1) := by
  set rows := marketSpine nadac entity_map with hrows
  set lst := (ingredientGroup rows d i).map (fun x => x.manufacturer) with hlst
  have hne : lst ≠ [] := by
    intro hemp
    apply hocc
    rw [totalIngredientNdcs, ← List.length_map (ingredientGroup rows d i)
      (fun x => x.manufacturer), ← hlst, hemp]
    rfl
  have hform : marketHHI rows d i =
      ((lst.dedup).map fun m =>
        ((lst.count m : ℚ) / (lst.length : ℚ)) ^ 2).sum := by
    rw [marketHHI, groupManufacturers]
    congr 1
    apply List.map_congr_left
    intro m _
    rw [marketShare_as_count]
  have hcomp : numCompetitors rows d i = lst.dedup.length := by
    rw [numCompetitors, groupManufacturers]
  have key := dedup_sq_sum_bounds lst hne
  constructor
  · rw [hform]; exact key.1
  · intro h1
    rw [hform]
    exact key.2 (by rw [← hcomp]; exact h1)

/-- Witness for C6: the one-row demo spine has a single manufacturer for
`GABAPENTIN` on day 100, and its HHI is exactly 1. -/
theorem hhi_bounds_witness :
    (0 < marketHHI (marketSpine dNadac dMap) 100 "GABAPENTIN" ∧
      marketHHI (marketSpine dNadac dMap) 100 "GABAPENTIN" ≤ 1) ∧
    marketHHI (marketSpine dNadac dMap) 100 "GABAPENTIN" = 1 := by
  have h := hhi_bounds dNadac dMap 100 "GABAPENTIN" (by decide)
  exact ⟨h.1, h.2 (by decide)⟩

/-! ## C4: missing upstream input files -/

/-- C4 counterexample: The claim says a missing feature table or
price history makes `log`/`reconcile` log a warning and return the registry
unmodified.  In the code neither read is guarded: at this concrete registry
(one overdue `PENDING` row) both operations propagate the exception instead
of returning the registry. -/
theorem missing_input_not_recoverable_cex :
    log_new_predictions none (some dNadac) dRegistry = .error .missingInput ∧
    reconcile_pending 100 none dRegistry = .error .missingInput := by
  decide

/-- C4 amended: A missing upstream file is *not* recoverable for the
ledger operations: `log` raises whenever the feature table is missing, and
`reconcile` raises whenever the price history is missing and at least one
pending row is due (it returns the registry untouched only when nothing is
due, because the file is then never read).  The one genuinely recoverable
missing input is `sentinel_risks.parquet` in `integrate_sentinel_risk`,
which falls back to a constant 0 risk column. -/
theorem missing_input_semantics :
    (∀ (nadac : Option (List NadacRow)) (registry : List PredictionRecord),
      log_new_predictions none nadac registry = .error .missingInput) ∧
    (∀ (now : Int) (registry : List PredictionRecord),
      ((registry.filter fun r =>
          r.status = "PENDING" && r.target_date ≤ now).isEmpty = false →
        reconcile_pending now none registry = .error .missingInput) ∧
      ((registry.filter fun r =>
          r.status = "PENDING" && r.target_date ≤ now).isEmpty = true →
        reconcile_pending now none registry = .ok registry)) ∧
    (∀ feats : List FeatRow,
      integrate_sentinel_risk feats none =
        feats.map fun f =>
          { feat := f, event_date := none, manufacturer_risk_score := 0 }) := by
  refine ⟨fun nadac registry => rfl, ?_, fun feats => rfl⟩
  intro now registry
  constructor
  · intro h
    simp [reconcile_pending, h]
  · intro h
    simp [reconcile_pending, h]

/-- Witness for the amended C4 at the demo registry: with its pending row
due (`now = 100`) reconcile errors; with nothing due (`now = 0`) it returns
the registry unchanged without reading the missing file. -/
theorem missing_input_semantics_witness :
    reconcile_pending 100 none dRegistry = .error .missingInput ∧
    reconcile_pending 0 none dRegistry = .ok dRegistry := by
  exact ⟨(missing_input_semantics.2.1 100 dRegistry).1 (by decide),
         (missing_input_semantics.2.1 0 dRegistry).2 (by decide)⟩

/-! ## C5: join-key normalization -/

/-- C5 counterexample: The manufacturer-risk join does *not* apply
`normalize_text` to its keys: a features row for `"Abbott Labs"` and a risk
event for `"ABBOTT"` — names that normalize to the same key, with the event
5 days earlier, well within tolerance — fail to match, leaving the default
risk score 0.  Under the claimed shared normalization they would match. -/
theorem shared_normalization_cex :
    normalize_text "Abbott Labs" = normalize_text "ABBOTT" ∧
    integrate_sentinel_risk [dFeatAbbott] (some [dRiskAbbott]) =
      [{ feat := dFeatAbbott, event_date := none,
         manufacturer_risk_score := 0 }] := by
  decide

/-- C5 amended: Only the shortage join derives its keys through the
shared `normalize_text`, applied identically to the spine side
(`ingredient`) and the event side (`generic_name`); the manufacturer-risk
join compares the raw `manufacturer` strings of both sides unmodified, with
no normalization function applied to either. -/
theorem join_key_normalization :
    (∀ (nadac : List NadacRow) (entity_map : List MapRow),
      ∀ s ∈ spineEnhanced nadac entity_map,
        s.join_key = s.ingredient.map normalize_text) ∧
    (∀ events : List ShortageEvent, ∀ e ∈ eventsNormalized events,
      ∃ raw ∈ events, e.join_key = normalize_text raw.generic_name ∧
        e.event_date = raw.event_date ∧ e.event_type = raw.event_type) ∧
    (∀ (feats : List FeatRow) (rs : List RiskEvent),
      ∀ fr ∈ riskJoined feats rs, ∀ e, fr.2 = some e →
        some e.manufacturer = fr.1.manufacturer) ∧
    (∀ rs : List RiskEvent, ∀ e ∈ aggRisks rs,
      ∃ raw ∈ rs, e.manufacturer = raw.manufacturer) := by
  refine ⟨?_, ?_, ?_, ?_⟩
  · intro nadac entity_map s hs
    rw [spineEnhanced, mem_sortByKey] at hs
    rcases List.mem_flatMap.mp hs with ⟨r, _hr, hsr⟩
    by_cases hemp : (entity_map.filter fun m => m.ndc11 = r.ndc11).isEmpty
    · rw [if_pos hemp] at hsr
      rcases List.mem_singleton.mp hsr with rfl
      rfl
    · rw [if_neg hemp] at hsr
      rcases List.mem_map.mp hsr with ⟨m, _hm, rfl⟩
      rfl
  · intro events e he
    rw [eventsNormalized, mem_sortByKey] at he
    rcases List.mem_map.mp he with ⟨raw, hraw, rfl⟩
    exact ⟨raw, hraw, rfl, rfl, rfl⟩
  · intro feats rs fr hfr e he
    rcases List.mem_map.mp hfr with ⟨f, _hf, rfl⟩
    have := (asofLast_some _ _ e he).2
    simp only [riskEligible, Bool.and_eq_true, decide_eq_true_eq] at this
    exact this.1.1
  · intro rs e he
    rcases mem_aggRisks rs e he with ⟨raw, hraw, _hd, hm⟩
    exact ⟨raw, hraw, hm.symm⟩

/-- Witness for the amended C5 at concrete inputs: the demo spine row's key
is `normalize_text` of its ingredient, and the matched risk event's raw
manufacturer equals the features row's raw manufacturer. -/
theorem join_key_normalization_witness :
    dJoinedRow.spine ∈ spineEnhanced dNadac dMap ∧
    dJoinedRow.spine.join_key = dJoinedRow.spine.ingredient.map normalize_text ∧
    some dRiskAbbott.manufacturer = dFeatAbbottU.manufacturer := by
  have hmem : dJoinedRow.spine ∈ spineEnhanced dNadac dMap := by decide
  refine ⟨hmem, join_key_normalization.1 dNadac dMap _ hmem, ?_⟩
  exact join_key_normalization.2.2.1 [dFeatAbbottU] [dRiskAbbott]
    (dFeatAbbottU, some dRiskAbbott) (by decide) dRiskAbbott rfl

/-! ## C7: momentum/volatility window defaults -/

theorem shiftList_getElem? (n : ℕ) (xs : List ℚ) (i : ℕ) (hi : i < xs.length) :
    (shiftList n xs)[i]? =
      some (if n ≤ i then some (xs.getD (i - n) 0) else none) := by
  rw [shiftList, List.getElem?_map, List.getElem?_range hi]
  rfl

theorem rollingAgg_getElem? {β : Type} (w : ℕ) (f : List ℚ → β) (xs : List ℚ)
    (i : ℕ) (hi : i < xs.length) :
    (rollingAgg w f xs)[i]? =
      some (if w ≤ i + 1 then some (f (windowAt w xs i)) else none) := by
  rw [rollingAgg, List.getElem?_map, List.getElem?_range hi]
  rfl

theorem priceVelocity4w_getD (xs : List ℚ) (i : ℕ) (hi : i < xs.length) :
    (priceVelocity4w xs).getD i 0 =
      if 4 ≤ i then (xs.getD i 0 - xs.getD (i - 4) 0) / xs.getD (i - 4) 0
      else 0 := by
  have hx : xs[i]? = some (xs.getD i 0) := by
    rw [List.getD_eq_getElem?_getD, List.getElem?_eq_getElem hi]
    rfl
  rw [priceVelocity4w, List.getD_eq_getElem?_getD, List.getElem?_zipWith, hx,
    shiftList_getElem? 4 xs i hi]
  by_cases h4 : 4 ≤ i
  · simp only [if_pos h4, Option.getD_some]
  · simp only [if_neg h4, Option.getD_some]

theorem priceVolatility12w_getD (xs : List ℚ) (i : ℕ) (hi : i < xs.length) :
    (priceVolatility12w xs).getD i 0 =
      if 12 ≤ i + 1 then
        sampleStd (windowAt 12 xs i) / ((sampleMean (windowAt 12 xs i) : ℚ) : ℝ)
      else 0 := by
  rw [priceVolatility12w, List.getD_eq_getElem?_getD, List.getElem?_zipWith,
    rollingAgg_getElem? 12 sampleStd xs i hi,
    rollingAgg_getElem? 12 sampleMean xs i hi]
  by_cases h12 : 12 ≤ i + 1
  · simp only [if_pos h12, Option.getD_some]
  · simp only [if_neg h12, Option.getD_some]

/-- C7 counterexample: `rolling_std`/`rolling_mean` with
`window_size = 12` (default `min_periods = 12`) produce their first
non-null value at the 12th observation, which has only 11 — not 12 — prior
observations; there the volatility is `sqrt(12)/11 ≠ 0`, while the claim
says it is still null-converted-to-0. -/
theorem volatility_before_12_priors_cex :
    (priceVolatility12w dPrices12).getD 11 0 = Real.sqrt 12 / 11 ∧
    0 < (priceVolatility12w dPrices12).getD 11 0 := by
  have h := priceVolatility12w_getD dPrices12 11 (by decide)
  rw [h, if_pos (by norm_num)]
  have hwin : windowAt 12 dPrices12 11 = dPrices12 := rfl
  rw [hwin]
  have hvar : sampleVar dPrices12 = 12 := by
    norm_num [sampleVar, sampleMean, dPrices12, List.sum_cons, List.sum_nil]
  have hmean : sampleMean dPrices12 = 11 := by
    norm_num [sampleMean, dPrices12, List.sum_cons, List.sum_nil]
  rw [sampleStd, hvar, hmean]
  have h12 : (((12 : ℚ)) : ℝ) = (12 : ℝ) := by norm_num
  have h11 : (((11 : ℚ)) : ℝ) = (11 : ℝ) := by norm_num
  rw [h12, h11]
  have hs : (0 : ℝ) < Real.sqrt 12 := Real.sqrt_pos.mpr (by norm_num)
  exact ⟨rfl, div_pos hs (by norm_num)⟩

/-- C7 amended: On an entity's chronological price series,
`price_velocity_4w` is 0 (null-filled) until 4 prior observations exist and
equals `(price_t − price_{t−4}) / price_{t−4}` thereafter;
`price_volatility_12w` is 0 (null-filled) until **11** prior observations
exist (the 12-observation window includes the current row), and from the
12th observation on equals the sample standard deviation of the trailing
12-observation window divided by its mean. -/
theorem price_dynamics_defaults (xs : List ℚ) (i : ℕ) (hi : i < xs.length) :
    (i < 4 → (priceVelocity4w xs).getD i 0 = 0) ∧
    (4 ≤ i → (priceVelocity4w xs).getD i 0 =
      (xs.getD i 0 - xs.getD (i - 4) 0) / xs.getD (i - 4) 0) ∧
    (i < 11 → (priceVolatility12w xs).getD i 0 = 0) ∧
    (11 ≤ i → (priceVolatility12w xs).getD i 0 =
      sampleStd (windowAt 12 xs i) / ((sampleMean (windowAt 12 xs i) : ℚ) : ℝ)) := by
  refine ⟨?_, ?_, ?_, ?_⟩
  · intro h4
    rw [priceVelocity4w_getD xs i hi, if_neg (by omega)]
  · intro h4
    rw [priceVelocity4w_getD xs i hi, if_pos h4]
  · intro h11
    rw [priceVolatility12w_getD xs i hi, if_neg (by omega)]
  · intro h11
    rw [priceVolatility12w_getD xs i hi, if_pos (by omega)]

/-- Witness for the amended C7 at the spec's own example series
`[10,10,10,10,12]`: momentum at the 5th observation is `(12−10)/10 = 0.2`,
and volatility there (only 4 priors) is still 0. -/
theorem price_dynamics_defaults_witness :
    (priceVelocity4w [10, 10, 10, 10, 12]).getD 4 0 = 1/5 ∧
    (priceVolatility12w [10, 10, 10, 10, 12]).getD 4 0 = 0 := by
  have h := price_dynamics_defaults [10, 10, 10, 10, 12] 4 (by decide)
  refine ⟨?_, h.2.2.1 (by norm_num)⟩
  rw [h.2.1 (le_refl 4)]
  have e1 : ([10, 10, 10, 10, 12] : List ℚ).getD 4 0 = 12 := rfl
  have e2 : ([10, 10, 10, 10, 12] : List ℚ).getD (4 - 4) 0 = 10 := rfl
  rw [e1, e2]
  norm_num

/-! ## C2: logging -/

/-- C2: Evaluation of `log_new_predictions` at a failing input: an
empty registry and a one-row feature table (a genuinely new prediction).
Instead of appending the new row — and instead of the claimed idempotent
behavior — the function raises: its `.with_columns` block references
`pl.col("effective_date")` after the `.select` has renamed that column to
`prediction_date`, a `ColumnNotFoundError`. -/
theorem log_crashes_on_new_predictions :
    log_new_predictions (some [⟨100, "N1", 10, 2⟩]) (some dNadac) [] =
      .error .schemaMismatch := rfl

/-! ## C3: reconciliation idempotency -/

theorem reconcileUpdatedRow_id (truth : List NadacRow) (r : PredictionRecord) :
    (reconcileUpdatedRow truth r).prediction_id = r.prediction_id := by
  rcases h : reconcileMatch truth r with _ | n <;> simp [reconcileUpdatedRow, h]

/-- A pending row that found no ground-truth price is written back
unchanged: the update overwrites `actual_price`/`price_change_pct` with
nulls (which `update` ignores) and `status` with the `PENDING` it already
had. -/
theorem applyUpdate_self_unmatched (truth : List NadacRow)
    (r : PredictionRecord) (hst : r.status = "PENDING")
    (hm : reconcileMatch truth r = none) :
    applyUpdate r (reconcileUpdatedRow truth r) = r := by
  obtain ⟨pid, pd, td, ndc, dn, sp, prs, ap, pcp, st⟩ := r
  simp only at hst
  subst hst
  simp only [reconcileUpdatedRow, hm, applyUpdate]
  cases dn <;> rfl

/-- A pending row that found a price becomes exactly its updated row. -/
theorem applyUpdate_self_matched (truth : List NadacRow)
    (r : PredictionRecord) (n : NadacRow)
    (hm : reconcileMatch truth r = some n) :
    applyUpdate r (reconcileUpdatedRow truth r) = reconcileUpdatedRow truth r := by
  obtain ⟨pid, pd, td, ndc, dn, sp, prs, ap, pcp, st⟩ := r
  simp only [reconcileUpdatedRow, hm, applyUpdate]
  cases dn <;> rfl

theorem reconcileRowOnce_id (now : Int) (truth : List NadacRow)
    (r : PredictionRecord) :
    (reconcileRowOnce now truth r).prediction_id = r.prediction_id := by
  unfold reconcileRowOnce
  split
  · show (reconcileUpdatedRow truth r).prediction_id = r.prediction_id
    exact reconcileUpdatedRow_id truth r
  · rfl

theorem reconcileRowOnce_resolved (now : Int) (truth : List NadacRow)
    (r : PredictionRecord) (h : r.status = "RESOLVED") :
    reconcileRowOnce now truth r = r := by
  unfold reconcileRowOnce
  rw [if_neg]
  simp [h]

theorem reconcileRowOnce_idem (now : Int) (truth : List NadacRow)
    (r : PredictionRecord) :
    reconcileRowOnce now truth (reconcileRowOnce now truth r) =
      reconcileRowOnce now truth r := by
  by_cases hp : (r.status = "PENDING" && r.target_date ≤ now) = true
  · have hst : r.status = "PENDING" := by
      simp only [Bool.and_eq_true, decide_eq_true_eq] at hp
      exact hp.1
    rcases hm : reconcileMatch truth r with _ | n
    · have h1 : reconcileRowOnce now truth r = r := by
        unfold reconcileRowOnce
        rw [if_pos hp]
        exact applyUpdate_self_unmatched truth r hst hm
      rw [h1]
      exact h1
    · have h1 : reconcileRowOnce now truth r = reconcileUpdatedRow truth r := by
        unfold reconcileRowOnce
        rw [if_pos hp]
        exact applyUpdate_self_matched truth r n hm
      have h2 : (reconcileUpdatedRow truth r).status = "RESOLVED" := by
        simp [reconcileUpdatedRow, hm]
      rw [h1, reconcileRowOnce_resolved now truth _ h2]
  · have h1 : reconcileRowOnce now truth r = r := by
      unfold reconcileRowOnce
      rw [if_neg hp]
    rw [h1, h1]

/-- Lookup `find?` in a list with at most one satisfying element. -/
theorem find?_eq_some_of_unique {l : List α} {p : α → Bool} {a : α}
    (ha : a ∈ l) (hpa : p a = true)
    (huniq : ∀ b ∈ l, p b = true → b = a) :
    l.find? p = some a := by
  induction l with
  | nil => cases ha
  | cons x t ih =>
    by_cases hx : p x = true
    · rw [List.find?_cons_of_pos _ hx]
      rw [huniq x (by simp) hx]
    · rw [List.find?_cons_of_neg _ hx]
      rcases List.mem_cons.mp ha with rfl | hat
      · exact absurd hpa hx
      · exact ih hat fun b hb hpb => huniq b (List.mem_cons.mpr (Or.inr hb)) hpb

/-- Under unique `prediction_id`s, the `update`-side lookup for a registry
row finds exactly its own updated row when the row was selected as
pending-and-due, and nothing otherwise. -/
theorem find?_updated (now : Int) (truth : List NadacRow)
    (l : List PredictionRecord)
    (hnd : (l.map fun r => r.prediction_id).Nodup)
    (r : PredictionRecord) (hr : r ∈ l) :
    (((sortByKey (fun x => x.target_date)
        (l.filter fun x => x.status = "PENDING" && x.target_date ≤ now)).map
          (reconcileUpdatedRow truth)).find?
      fun u => u.prediction_id = r.prediction_id) =
    (if (r.status = "PENDING" && r.target_date ≤ now) = true
     then some (reconcileUpdatedRow truth r) else none) := by
  have hinj : ∀ x ∈ l, ∀ y ∈ l, x.prediction_id = y.prediction_id → x = y :=
    List.inj_on_of_nodup_map hnd
  by_cases hp : (r.status = "PENDING" && r.target_date ≤ now) = true
  · rw [if_pos hp]
    apply find?_eq_some_of_unique
    · exact List.mem_map_of_mem _
        ((mem_sortByKey _ _ r).mpr (List.mem_filter.mpr ⟨hr, hp⟩))
    · simp [reconcileUpdatedRow_id]
    · intro b hb hpb
      rcases List.mem_map.mp hb with ⟨q, hq, rfl⟩
      rw [mem_sortByKey] at hq
      have hql := List.mem_of_mem_filter hq
      simp only [reconcileUpdatedRow_id, decide_eq_true_eq] at hpb
      rw [hinj q hql r hr hpb]
  · rw [if_neg hp]
    rw [List.find?_eq_none]
    intro u hu
    rcases List.mem_map.mp hu with ⟨q, hq, rfl⟩
    rw [mem_sortByKey] at hq
    have hql := List.mem_of_mem_filter hq
    have hqp := List.of_mem_filter hq
    simp only [reconcileUpdatedRow_id, decide_eq_true_eq]
    intro hid
    rw [hinj q hql r hr hid] at hqp
    exact hp hqp

/-- One `reconcile_pending` pass on a registry with unique ids is exactly
the pointwise map of `reconcileRowOnce`. -/
theorem reconcile_eq_map (now : Int) (truth : List NadacRow)
    (l : List PredictionRecord)
    (hnd : (l.map fun r => r.prediction_id).Nodup) :
    reconcile_pending now (some truth) l =
      .ok (l.map (reconcileRowOnce now truth)) := by
  unfold reconcile_pending
  by_cases hemp :
      (l.filter fun r => r.status = "PENDING" && r.target_date ≤ now).isEmpty
  · rw [if_pos hemp]
    have hall : ∀ r ∈ l, ¬ (r.status = "PENDING" && r.target_date ≤ now) = true := by
      rw [List.isEmpty_iff, List.filter_eq_nil_iff] at hemp
      exact hemp
    have hpt : ∀ r ∈ l, reconcileRowOnce now truth r = id r := by
      intro r hr
      unfold reconcileRowOnce
      rw [if_neg (hall r hr)]
      rfl
    rw [List.map_congr_left hpt, List.map_id]
  · rw [if_neg hemp]
    dsimp only
    congr 1
    apply List.map_congr_left
    intro r hr
    rw [find?_updated now truth l hnd r hr]
    unfold reconcileRowOnce
    by_cases hp : (r.status = "PENDING" && r.target_date ≤ now) = true
    · rw [if_pos hp, if_pos hp]
    · rw [if_neg hp, if_neg hp]

/-- C3: With a fixed ground-truth price table and a registry whose
`prediction_id`s are unique (the ledger invariant the id scheme is designed
to provide), reconciliation is idempotent: a second run immediately after a
first returns exactly the first run's output, and a row already `RESOLVED`
is never selected again — it is carried through both runs bit-identically,
so no status ever regresses from `RESOLVED` to `PENDING`. -/
theorem reconcile_idempotent (now : Int) (truth : List NadacRow)
    (registry reg1 : List PredictionRecord)
    (hnd : (registry.map fun r => r.prediction_id).Nodup)
    (h : reconcile_pending now (some truth) registry = .ok reg1) :
    reconcile_pending now (some truth) reg1 = .ok reg1 ∧
    ∀ (i : ℕ) (r : PredictionRecord), registry[i]? = some r →
      r.status = "RESOLVED" → reg1[i]? = some r := by
  have heq := reconcile_eq_map now truth registry hnd
  rw [h] at heq
  have hr1 : reg1 = registry.map (reconcileRowOnce now truth) :=
    Except.ok.inj heq
  have hnd1 : (reg1.map fun r => r.prediction_id).Nodup := by
    rw [hr1, List.map_map]
    have hcomp : ((fun r : PredictionRecord => r.prediction_id) ∘
        reconcileRowOnce now truth) = fun r => r.prediction_id :=
      funext fun r => reconcileRowOnce_id now truth r
    rw [hcomp]
    exact hnd
  constructor
  · rw [reconcile_eq_map now truth reg1 hnd1]
    congr 1
    rw [hr1, List.map_map]
    apply List.map_congr_left
    intro r _
    exact reconcileRowOnce_idem now truth r
  · intro i r hi hres
    rw [hr1, List.getElem?_map, hi, Option.map_some',
      reconcileRowOnce_resolved now truth r hres]

/-- Witness for C3 at a concrete ledger: one overdue `PENDING` row that
resolves against the demo price history and one already-`RESOLVED` row;
the second run reproduces the first run's output and the resolved row of
the input is untouched. -/
theorem reconcile_idempotent_witness :
    reconcile_pending 150 (some dNadac) dRegistry2 = .ok dRegistry2Reconciled ∧
    reconcile_pending 150 (some dNadac) dRegistry2Reconciled =
      .ok dRegistry2Reconciled ∧
    dRegistry2Reconciled[1]? = some dResolvedRow := by
  have h : reconcile_pending 150 (some dNadac) dRegistry2 =
      .ok dRegistry2Reconciled := rfl
  have hmain := reconcile_idempotent 150 dNadac dRegistry2 dRegistry2Reconciled
    (by decide) h
  exact ⟨h, hmain.1, hmain.2 1 dResolvedRow rfl rfl⟩

/-! ## C9: aggregation before matching -/

theorem shortage_stream_not_reduced_cex :
    shortageJoined dNadac dMap [dTieStart, dTieResolved] = [dTieJoinResolved] ∧
    shortageJoined dNadac dMap [dTieResolved, dTieStart] = [dTieJoinStart] ∧
    (shortageSignalOf dTieJoinResolved).is_shortage = 0 ∧
    (shortageSignalOf dTieJoinStart).is_shortage = 1 := by
  refine ⟨by decide, by decide, rfl, rfl⟩

theorem max?_perm {l1 l2 : List ℚ} (h : l1.Perm l2) : l1.max? = l2.max? := by
  haveI : Std.Antisymm ((· : ℚ) ≤ ·) := ⟨fun h1 h2 => le_antisymm h1 h2⟩
  rcases h1 : l1.max? with _ | a
  · rcases h2 : l2.max? with _ | b
    · rfl
    · rw [List.max?_eq_none_iff] at h1
      subst h1
      have h2' : l2 = [] := h.symm.eq_nil
      subst h2'
      simp at h2
  · have hspec := (List.max?_eq_some_iff (fun a => le_refl a) max_choice
      (fun _ _ _ => max_le_iff)).mp h1
    symm
    rw [List.max?_eq_some_iff (fun a => le_refl a) max_choice
      (fun _ _ _ => max_le_iff)]
    exact ⟨h.mem_iff.mp hspec.1, fun b hb => hspec.2 b (h.mem_iff.mpr hb)⟩

theorem maxSeverity_perm (rs1 rs2 : List RiskEvent) (h : rs1.Perm rs2)
    (d : Int) (m : String) : maxSeverity rs1 d m = maxSeverity rs2 d m := by
  unfold maxSeverity
  rw [max?_perm ((h.filter _).map _)]

/-- Membership characterization of `agg_risks`: exactly the
`(event_date, manufacturer)` pairs of the raw stream, each carrying the
group's maximum severity. -/
theorem aggRisks_mem_char (rs : List RiskEvent) (e : RiskEvent) :
    e ∈ aggRisks rs ↔
      ((∃ r ∈ rs, r.event_date = e.event_date ∧
          r.manufacturer = e.manufacturer) ∧
        e.severity_score = maxSeverity rs e.event_date e.manufacturer) := by
  constructor
  · intro he
    rw [aggRisks, mem_sortByKey] at he
    rcases List.mem_map.mp he with ⟨k, hk, rfl⟩
    rcases List.mem_map.mp (List.mem_dedup.mp hk) with ⟨r, hr, hkr⟩
    subst hkr
    exact ⟨⟨r, hr, rfl, rfl⟩, rfl⟩
  · rintro ⟨⟨r, hr, hd, hm⟩, hs⟩
    rw [aggRisks, mem_sortByKey]
    refine List.mem_map.mpr ⟨(e.event_date, e.manufacturer), ?_, ?_⟩
    · rw [List.mem_dedup]
      exact List.mem_map.mpr ⟨r, hr, by rw [hd, hm]⟩
    · cases e with
      | mk d m s =>
        dsimp only at hs ⊢
        rw [hs]

/-- Two `agg_risks` rows with the same key are the same row. -/
theorem aggRisks_unique (rs : List RiskEvent) (e1 e2 : RiskEvent)
    (h1 : e1 ∈ aggRisks rs) (h2 : e2 ∈ aggRisks rs)
    (hd : e1.event_date = e2.event_date)
    (hm : e1.manufacturer = e2.manufacturer) : e1 = e2 := by
  have c1 := ((aggRisks_mem_char rs e1).mp h1).2
  have c2 := ((aggRisks_mem_char rs e2).mp h2).2
  cases e1 with
  | mk d1 m1 s1 =>
    cases e2 with
    | mk d2 m2 s2 =>
      dsimp only at hd hm c1 c2
      subst hd
      subst hm
      rw [c1, c2]

theorem asofLast_agg_perm (rs1 rs2 : List RiskEvent) (h : rs1.Perm rs2)
    (f : FeatRow) :
    asofLast (riskEligible f) (aggRisks rs1) =
      asofLast (riskEligible f) (aggRisks rs2) := by
  have hmemiff : ∀ e, e ∈ aggRisks rs1 ↔ e ∈ aggRisks rs2 := by
    intro e
    rw [aggRisks_mem_char, aggRisks_mem_char,
      maxSeverity_perm rs1 rs2 h e.event_date e.manufacturer]
    constructor
    · rintro ⟨⟨r, hr, hk⟩, hs⟩
      exact ⟨⟨r, h.mem_iff.mp hr, hk⟩, hs⟩
    · rintro ⟨⟨r, hr, hk⟩, hs⟩
      exact ⟨⟨r, h.mem_iff.mpr hr, hk⟩, hs⟩
  rcases ha : asofLast (riskEligible f) (aggRisks rs1) with _ | a
  · symm
    rw [asofLast_eq_none_iff] at ha ⊢
    intro e he
    exact ha e ((hmemiff e).mpr he)
  · obtain ⟨ha1, hpa⟩ := asofLast_some _ _ a ha
    have hmaxa := asofLast_max (fun e => e.event_date) _ _ a
      (keySorted_sortByKey _ _) ha
    have ha2 : a ∈ aggRisks rs2 := (hmemiff a).mp ha1
    have hsome2 := asofLast_isSome (riskEligible f) (aggRisks rs2) a ha2 hpa
    rcases hb : asofLast (riskEligible f) (aggRisks rs2) with _ | b
    · rw [hb] at hsome2
      simp at hsome2
    · obtain ⟨hb2, hpb⟩ := asofLast_some _ _ b hb
      have hmaxb := asofLast_max (fun e => e.event_date) _ _ b
        (keySorted_sortByKey _ _) hb
      have hb1 : b ∈ aggRisks rs1 := (hmemiff b).mpr hb2
      have hdd : a.event_date = b.event_date :=
        le_antisymm (hmaxb a ha2 hpa) (hmaxa b hb1 hpb)
      have hma : some a.manufacturer = f.manufacturer := by
        have := hpa
        simp only [riskEligible, Bool.and_eq_true, decide_eq_true_eq] at this
        exact this.1.1
      have hmb : some b.manufacturer = f.manufacturer := by
        have := hpb
        simp only [riskEligible, Bool.and_eq_true, decide_eq_true_eq] at this
        exact this.1.1
      have hmm : a.manufacturer = b.manufacturer :=
        Option.some.inj (hma.trans hmb.symm)
      rw [aggRisks_unique rs1 a b ha1 hb1 hdd hmm]

/-- C9 amended: Only the risk stream is reduced before matching: in
`agg_risks` each `(event_date, manufacturer)` pair occurring in the raw
Sentinel stream appears as exactly one row carrying the group's maximum
severity, and consequently the whole Sentinel integration is invariant
under any reordering of the raw risk stream.  (The shortage stream is fed
to its join unreduced; see the counterexample.) -/
theorem risk_stream_aggregated :
    (∀ (rs : List RiskEvent) (e1 e2 : RiskEvent), e1 ∈ aggRisks rs →
      e2 ∈ aggRisks rs → e1.event_date = e2.event_date →
      e1.manufacturer = e2.manufacturer → e1 = e2) ∧
    (∀ (rs : List RiskEvent), ∀ e ∈ aggRisks rs,
      e.severity_score = maxSeverity rs e.event_date e.manufacturer) ∧
    (∀ (feats : List FeatRow) (rs1 rs2 : List RiskEvent), rs1.Perm rs2 →
      integrate_sentinel_risk feats (some rs1) =
        integrate_sentinel_risk feats (some rs2)) := by
  refine ⟨aggRisks_unique, ?_, ?_⟩
  · intro rs e he
    exact ((aggRisks_mem_char rs e).mp he).2
  · intro feats rs1 rs2 h
    simp only [integrate_sentinel_risk, riskJoined, List.map_map]
    apply List.map_congr_left
    intro f _
    simp only [Function.comp_apply]
    rw [asofLast_agg_perm rs1 rs2 h f]

/-- Witness for the amended C9: two tied risk events for `ABBOTT` on day
95 with severities 3 and 9; swapping their order leaves the Sentinel
integration output unchanged. -/
theorem risk_stream_aggregated_witness :
    integrate_sentinel_risk [dFeatAbbottU]
        (some [⟨95, "ABBOTT", 3⟩, ⟨95, "ABBOTT", 9⟩]) =
      integrate_sentinel_risk [dFeatAbbottU]
        (some [⟨95, "ABBOTT", 9⟩, ⟨95, "ABBOTT", 3⟩]) := by
  exact risk_stream_aggregated.2.2 [dFeatAbbottU] _ _ (List.Perm.swap _ _ _)
